import Mathlib

/-!
Verification of the owl configuration applier.

This development shallowly embeds the reconciliation core of the owl
repository in Lean 4 and proves (or refutes) the specified properties of
its three parts: the layered config resolver (parser + loader), the
package-state planner, and the dotfile synchronization engine.

Conventions of the embedding:
- Rust HashMap values are association lists (List (String × _)); HashMap
  insertion is modelled by ainsert (replace the first binding or append)
  and lookup by alookup (first binding wins), matching unique-key maps.
- External collaborators (the package manager, user confirmation, OS
  errors) are oracle parameters.
- The filesystem is a flat map from path strings to nodes; SHA-256 is
  modelled as an injective fingerprint, so hash equality is content
  equality, and file metadata is consistent with file contents
  (metadata length equals content length, as the OS guarantees).
-/

namespace Owl

/-! ### Association list primitives (model of HashMap) -/

/-- HashMap::insert — replace the first binding for the key, or append. -/
def ainsert {β : Type} (k : String) (v : β) : List (String × β) → List (String × β)
  | [] => [(k, v)]
  | (k', v') :: t => if k' = k then (k, v) :: t else (k', v') :: ainsert k v t

/-- HashMap lookup — first binding for the key. -/
def alookup {β : Type} (k : String) : List (String × β) → Option β
  | [] => none
  | (k', v) :: t => if k' = k then some v else alookup k t

/-- HashMap::get_mut followed by a mutation — rewrite the first binding. -/
def amodify {β : Type} (k : String) (f : β → β) : List (String × β) → List (String × β)
  | [] => []
  | (k', v) :: t => if k' = k then (k', f v) :: t else (k', v) :: amodify k f t

theorem alookup_ainsert_self {β : Type} (k : String) (v : β) (l : List (String × β)) :
    alookup k (ainsert k v l) = some v := by
  induction l with
  | nil => simp [ainsert, alookup]
  | cons h t ih =>
    by_cases hk : h.1 = k
    · simp [ainsert, alookup, hk]
    · simp [ainsert, alookup, hk, ih]

theorem alookup_ainsert_ne {β : Type} {k k' : String} (v : β) (l : List (String × β))
    (h : k' ≠ k) : alookup k' (ainsert k v l) = alookup k' l := by
  induction l with
  | nil => simp [ainsert, alookup, Ne.symm h]
  | cons hd t ih =>
    obtain ⟨k₀, v₀⟩ := hd
    by_cases hk : k₀ = k
    · subst hk
      simp [ainsert, alookup, Ne.symm h]
    · by_cases hk' : k₀ = k'
      · subst hk'
        simp [ainsert, alookup, hk, h]
      · simp [ainsert, alookup, hk, hk', ih]

/-- Character-list version of the prefix test. -/
def charsPre : List Char → List Char → Bool
  | [], _ => true
  | _ :: _, [] => false
  | a :: t, b :: u => a == b && charsPre t u

/-- Rust str::starts_with (str::startsWith of the source lines); byte and
character prefixes agree on valid UTF-8. -/
def strHasPre (p s : String) : Bool := charsPre p.data s.data

/-- Split at the leftmost occurrence of the separator. -/
def splitOnceAux (sep : List Char) : List Char → Option (List Char × List Char)
  | [] => if charsPre sep [] then some ([], []) else none
  | c :: rest =>
    if charsPre sep (c :: rest) then some ([], (c :: rest).drop sep.length)
    else
      match splitOnceAux sep rest with
      | some (pre, post) => some (c :: pre, post)
      | none => none

/-- Rust str::split_once — split at the first occurrence of the separator. -/
def splitOnce (s sep : String) : Option (String × String) :=
  match splitOnceAux sep.data s.data with
  | some (pre, post) => some (⟨pre⟩, ⟨post⟩)
  | none => none

/-- Split on a single separator character (Rust str::split for a char
pattern). -/
def splitChar (ch : Char) : List Char → List (List Char)
  | [] => [[]]
  | c :: rest =>
    let r := splitChar ch rest
    if c = ch then [] :: r
    else
      match r with
      | [] => [[c]]
      | seg :: segs => (c :: seg) :: segs

/-- The part of the string before the first occurrence of the character:
Rust split(ch).next(). -/
def upToChar (ch : Char) : List Char → List Char
  | [] => []
  | c :: rest => if c = ch then [] else c :: upToChar ch rest

/-- Drop leading whitespace characters. -/
def dropWhileWs : List Char → List Char
  | [] => []
  | c :: rest => if c.isWhitespace then dropWhileWs rest else c :: rest

/-- Rust str::trim — strip whitespace from both ends. -/
def strTrim (s : String) : String :=
  ⟨(dropWhileWs (dropWhileWs s.data).reverse).reverse⟩

theorem charsPre_head {a : Char} {t s : List Char} (h : charsPre (a :: t) s = true) :
    charsPre [a] s = true := by
  cases s with
  | nil => simp [charsPre] at h
  | cons b u =>
    simp only [charsPre, Bool.and_eq_true] at h ⊢
    exact ⟨h.1, by simp [charsPre]⟩

/-! ### Config data model (src/core/config, parser revision)

The parser revision stores each package's :config directives in a list
(Vec<String> in parse_config_directive), an optional :service name and a
package-scoped env-var map. -/

structure Package where
  config : List String
  service : Option String
  env_vars : List (String × String)
deriving DecidableEq, Repr

/-- The fresh entry inserted by a package declaration. -/
def freshPackage : Package := ⟨[], none, []⟩

structure Config where
  packages : List (String × Package)
  groups : List String
  env_vars : List (String × String)
deriving DecidableEq, Repr

/-- Config::new -/
def Config.empty : Config := ⟨[], [], []⟩

/-! ### Parser (src/core/config/parser.rs) -/

/-- parse_package_declaration: open a package block, insert a fresh entry,
leave the bare-name section. Returns (config, current_package, in_packages_section). -/
def parsePackageDeclaration (cfg : Config) (line : String) :
    Config × Option String × Bool :=
  let name :=
    if strHasPre "@package " line then strTrim (line.drop 9)
    else if strHasPre "@pkg " line then strTrim (line.drop 5)
    else strTrim line
  ({ cfg with packages := ainsert name freshPackage cfg.packages }, some name, false)

/-- parse_config_directive: attach a dotfile mapping to the current package. -/
def parseConfigDirective (cfg : Config) (cur : Option String) (rest : String) : Config :=
  match splitOnce rest " -> " with
  | some (source, sink) =>
    match cur with
    | some pkgName =>
      let f := fun (p : Package) =>
        { p with config := p.config ++ [strTrim source ++ " -> " ++ strTrim sink] }
      { cfg with packages := amodify pkgName f cfg.packages }
    | none => cfg
  | none =>
    match cur with
    | some pkgName =>
      let f := fun (p : Package) => { p with config := p.config ++ [strTrim rest] }
      { cfg with packages := amodify pkgName f cfg.packages }
    | none => cfg

/-- parse_service_directive: service name is everything before the first [. -/
def parseServiceDirective (cfg : Config) (cur : Option String) (rest : String) : Config :=
  let serviceName := strTrim ⟨upToChar (Char.ofNat 91) rest.data⟩
  match cur with
  | some pkgName =>
    let f := fun (p : Package) => { p with service := some serviceName }
    { cfg with packages := amodify pkgName f cfg.packages }
  | none => cfg

/-- parse_package_env_directive: KEY=VALUE for the current package;
a line without = is ignored. -/
def parsePackageEnvDirective (cfg : Config) (cur : Option String) (rest : String) : Config :=
  match splitOnce rest "=" with
  | some (key, value) =>
    match cur with
    | some pkgName =>
      let f := fun (p : Package) =>
        { p with env_vars := ainsert (strTrim key) (strTrim value) p.env_vars }
      { cfg with packages := amodify pkgName f cfg.packages }
    | none => cfg
  | none => cfg

/-- parse_global_env_directive: KEY=VALUE at global scope. -/
def parseGlobalEnvDirective (cfg : Config) (rest : String) : Config :=
  match splitOnce rest "=" with
  | some (key, value) =>
    { cfg with env_vars := ainsert (strTrim key) (strTrim value) cfg.env_vars }
  | none => cfg

/-- parse_group_declaration: register a group reference, close any block. -/
def parseGroupDeclaration (cfg : Config) (line : String) : Config :=
  { cfg with groups := cfg.groups ++ [strTrim (line.drop 7)] }

/-- parse_package_in_section: a bare name inside @packages/@pkgs. -/
def parsePackageInSection (cfg : Config) (line : String) : Config :=
  { cfg with packages := ainsert (strTrim line) freshPackage cfg.packages }

/-- The state transition of parse_line: dispatch on the directive; unknown
lines are silently ignored. State is (config, current_package,
in_packages_section). -/
def parseLineStep (cfg : Config) (cur : Option String) (insec : Bool) (line : String) :
    Config × Option String × Bool :=
  if strHasPre "@package " line || strHasPre "@pkg " line then
    parsePackageDeclaration cfg line
  else if line = "@packages" || line = "@pkgs" then
    (cfg, none, true)
  else if strHasPre ":config " line then
    (parseConfigDirective cfg cur (line.drop 8), cur, insec)
  else if strHasPre ":cfg " line then
    (parseConfigDirective cfg cur (line.drop 5), cur, insec)
  else if strHasPre ":service " line then
    (parseServiceDirective cfg cur (line.drop 9), cur, insec)
  else if strHasPre ":env " line then
    (parsePackageEnvDirective cfg cur (line.drop 5), cur, insec)
  else if strHasPre "@env " line then
    (parseGlobalEnvDirective cfg (line.drop 5), cur, insec)
  else if strHasPre "@group " line then
    (parseGroupDeclaration cfg line, none, insec)
  else if !strHasPre "@" line && !strHasPre ":" line && insec then
    (parsePackageInSection cfg line, cur, insec)
  else
    (cfg, cur, insec)

/-- parse_line: every dispatch branch of the source returns Ok — the
directive sub-parsers are total — so the Result wrapper always carries
the stepped state. -/
def parseLine (cfg : Config) (cur : Option String) (insec : Bool) (line : String) :
    Except String (Config × Option String × Bool) :=
  .ok (parseLineStep cfg cur insec line)

/-- The line loop of Config::parse: trim, skip blanks and comments,
dispatch, propagate errors. -/
def parseLines (cfg : Config) (cur : Option String) (insec : Bool) :
    List String → Except String Config
  | [] => .ok cfg
  | l :: ls =>
    let t := strTrim l
    if t.data.isEmpty || strHasPre "#" t then parseLines cfg cur insec ls
    else
      match parseLine cfg cur insec t with
      | .ok r => parseLines r.1 r.2.1 r.2.2 ls
      | .error e => .error e

/-- Config::parse -/
def Config.parse (content : String) : Except String Config :=
  parseLines Config.empty none false (content.splitOn "\n")

/-- Total version of the parser used by the loader model; parse never
fails (theorem parse_isOk below), so this loses nothing. -/
def parseC (content : String) : Config :=
  match Config.parse content with
  | .ok c => c
  | .error _ => Config.empty

theorem parseLine_isOk (cfg : Config) (cur : Option String) (insec : Bool) (line : String) :
    ∃ r, parseLine cfg cur insec line = .ok r :=
  ⟨parseLineStep cfg cur insec line, rfl⟩

theorem parseLines_isOk (cfg : Config) (cur : Option String) (insec : Bool)
    (ls : List String) : ∃ c, parseLines cfg cur insec ls = .ok c := by
  induction ls generalizing cfg cur insec with
  | nil => exact ⟨cfg, rfl⟩
  | cons l t ih =>
    rw [parseLines]
    split
    · exact ih ..
    · exact ih ..

theorem parse_isOk (content : String) : ∃ c, Config.parse content = .ok c :=
  parseLines_isOk ..

theorem parse_eq_parseC (content : String) : Config.parse content = .ok (parseC content) := by
  obtain ⟨c, hc⟩ := parse_isOk content
  simp [parseC, hc]

/-! ### Loader (src/core/config/loader.rs)

add_if_not_exists merges a lower-priority document into the accumulated
config: packages and env vars via HashMap::entry().or_insert() (the
existing, earlier-merged binding is kept), groups appended unless already
present. -/

/-- Config::add_if_not_exists -/
def addIfNotExists (self other : Config) : Config :=
  { packages := other.packages.foldl
      (fun ps kv => if (alookup kv.1 ps).isSome then ps else ps ++ [kv]) self.packages
    groups := other.groups.foldl
      (fun gs g => if g ∈ gs then gs else gs ++ [g]) self.groups
    env_vars := other.env_vars.foldl
      (fun es kv => if (alookup kv.1 es).isSome then es else es ++ [kv]) self.env_vars }

theorem alookup_append {β : Type} (n : String) (l₁ l₂ : List (String × β)) :
    alookup n (l₁ ++ l₂) = Option.or (alookup n l₁) (alookup n l₂) := by
  induction l₁ with
  | nil => simp [alookup]
  | cons kv t ih =>
    by_cases h : kv.1 = n
    · simp [alookup, h]
    · simp [alookup, h, ih]

theorem alookup_foldl_orInsert {β : Type} (l : List (String × β)) (n : String) :
    ∀ init : List (String × β),
      alookup n (l.foldl (fun ps kv => if (alookup kv.1 ps).isSome then ps else ps ++ [kv]) init)
        = Option.or (alookup n init) (alookup n l) := by
  induction l with
  | nil =>
    intro init
    simp only [List.foldl_nil]
    cases alookup n init <;> simp [alookup]
  | cons kv t ih =>
    intro init
    simp only [List.foldl_cons]
    by_cases hkv : (alookup kv.1 init).isSome
    · rw [if_pos hkv, ih]
      by_cases hn : kv.1 = n
      · subst hn
        obtain ⟨v, hv⟩ := Option.isSome_iff_exists.1 hkv
        simp [alookup, hv]
      · cases hinit : alookup n init <;> simp [alookup, hn]
    · rw [if_neg hkv, ih, alookup_append]
      by_cases hn : kv.1 = n
      · subst hn
        rw [Option.not_isSome_iff_eq_none] at hkv
        simp [alookup, hkv]
      · cases hinit : alookup n init <;> simp [alookup, hn]

theorem mem_foldl_addDistinct (l : List String) (x : String) :
    ∀ init : List String,
      (x ∈ l.foldl (fun gs g => if g ∈ gs then gs else gs ++ [g]) init) ↔
        x ∈ init ∨ x ∈ l := by
  induction l with
  | nil => intro init; simp
  | cons g t ih =>
    intro init
    simp only [List.foldl_cons]
    by_cases hg : g ∈ init
    · rw [if_pos hg, ih]
      constructor
      · rintro (h | h)
        · exact Or.inl h
        · exact Or.inr (List.mem_cons_of_mem _ h)
      · rintro (h | h)
        · exact Or.inl h
        · rcases List.mem_cons.1 h with rfl | h
          · exact Or.inl hg
          · exact Or.inr h
    · rw [if_neg hg, ih]
      simp only [List.mem_append, List.mem_singleton, List.mem_cons]
      tauto

theorem nodup_foldl_addDistinct (l : List String) :
    ∀ init : List String, init.Nodup →
      (l.foldl (fun gs g => if g ∈ gs then gs else gs ++ [g]) init).Nodup := by
  induction l with
  | nil => intro init h; simpa using h
  | cons g t ih =>
    intro init h
    simp only [List.foldl_cons]
    by_cases hg : g ∈ init
    · rw [if_pos hg]; exact ih init h
    · rw [if_neg hg]
      refine ih _ ?_
      simp [List.nodup_append, h, hg]

theorem addIfNotExists_groups_nodup (self other : Config) (h : self.groups.Nodup) :
    (addIfNotExists self other).groups.Nodup :=
  nodup_foldl_addDistinct other.groups self.groups h

theorem mem_addIfNotExists_groups (self other : Config) (g : String) :
    g ∈ (addIfNotExists self other).groups ↔ g ∈ self.groups ∨ g ∈ other.groups :=
  mem_foldl_addDistinct other.groups g self.groups

theorem alookup_mem {β : Type} {k : String} {v : β} :
    ∀ {l : List (String × β)}, alookup k l = some v → (k, v) ∈ l := by
  intro l
  induction l with
  | nil => intro h; simp [alookup] at h
  | cons kv t ih =>
    obtain ⟨k₀, v₀⟩ := kv
    intro h
    by_cases hk : k₀ = k
    · simp only [alookup, if_pos hk] at h
      subst hk
      obtain rfl : v₀ = v := by simpa using h
      exact List.mem_cons_self _ _
    · simp only [alookup, if_neg hk] at h
      exact List.mem_cons_of_mem _ (ih h)

theorem length_filter_le_mono {α : Type} {p q : α → Bool}
    (himp : ∀ x, q x = true → p x = true) :
    ∀ l : List α, (l.filter q).length ≤ (l.filter p).length := by
  intro l
  induction l with
  | nil => simp
  | cons u t ih =>
    cases hq : q u
    · cases hp : p u
      · rw [List.filter_cons_of_neg (by simp [hq]), List.filter_cons_of_neg (by simp [hp])]
        exact ih
      · rw [List.filter_cons_of_neg (by simp [hq]), List.filter_cons_of_pos hp]
        exact Nat.le_succ_of_le ih
    · have hp := himp u hq
      rw [List.filter_cons_of_pos hq, List.filter_cons_of_pos hp]
      exact Nat.succ_le_succ ih

theorem length_filter_lt_mono {α : Type} {p q : α → Bool} (a : α)
    (himp : ∀ x, q x = true → p x = true) (hpa : p a = true) (hqa : q a = false) :
    ∀ l : List α, a ∈ l → (l.filter q).length < (l.filter p).length := by
  intro l hal
  induction l with
  | nil => simp at hal
  | cons u t ih =>
    rcases List.mem_cons.1 hal with rfl | hat
    · rw [List.filter_cons_of_pos hpa, List.filter_cons_of_neg (by simp [hqa])]
      exact Nat.lt_succ_of_le (length_filter_le_mono himp t)
    · cases hq : q u
      · cases hp : p u
        · rw [List.filter_cons_of_neg (by simp [hq]), List.filter_cons_of_neg (by simp [hp])]
          exact ih hat
        · rw [List.filter_cons_of_neg (by simp [hq]), List.filter_cons_of_pos hp]
          exact Nat.lt_succ_of_lt (ih hat)
      · have hp := himp u hq
        rw [List.filter_cons_of_pos hq, List.filter_cons_of_pos hp]
        exact Nat.succ_lt_succ (ih hat)

/-- A processed name leaves strictly fewer unprocessed names in the
universe U. -/
theorem length_filter_lt_of_unprocessed (U : List String) (g : String)
    (processed : List String) (hg : g ∈ U) (hnp : g ∉ processed) :
    (U.filter (fun n => decide (n ∉ g :: processed))).length <
      (U.filter (fun n => decide (n ∉ processed))).length := by
  refine length_filter_lt_mono g ?_ ?_ ?_ U hg
  · intro x hx
    have hx' : x ∉ g :: processed := of_decide_eq_true hx
    exact decide_eq_true (fun hc => hx' (List.mem_cons_of_mem _ hc))
  · exact decide_eq_true hnp
  · exact decide_eq_false (fun hc => hc (List.mem_cons_self g processed))

/-- The work-stack loop of load_groups_with_precedence: pop a group name,
skip it if already processed, otherwise mark it processed, parse its
group file if present, push its not-yet-processed group references and
merge its contents with add_if_not_exists. U is the finite universe of
group names that can ever enter the stack; the invariant hs keeps the
recursion well-founded even on cyclic group-reference graphs. -/
def loopGroups (files : List (String × String)) (U : List String)
    (hU : ∀ p ∈ files, ∀ g ∈ (parseC p.2).groups, g ∈ U) :
    (stack : List String) → (processed : List String) → (cfg : Config) →
    (∀ g ∈ stack, g ∈ U) → Config
  | [], _, cfg, _ => cfg
  | g :: rest, processed, cfg, hs =>
    if hproc : g ∈ processed then
      loopGroups files U hU rest processed cfg
        (fun x hx => hs x (List.mem_cons_of_mem g hx))
    else
      match hfile : alookup g files with
      | none =>
        loopGroups files U hU rest (g :: processed) cfg
          (fun x hx => hs x (List.mem_cons_of_mem g hx))
      | some content =>
        let gc := parseC content
        let newGroups := gc.groups.filter (fun n => decide (n ∉ g :: processed))
        loopGroups files U hU (newGroups.reverse ++ rest) (g :: processed)
          (addIfNotExists cfg gc)
          (fun x hx => by
            rcases List.mem_append.1 hx with hx | hx
            · have hx' : x ∈ gc.groups :=
                List.mem_of_mem_filter (List.mem_reverse.1 hx)
              exact hU (g, content) (alookup_mem hfile) x hx'
            · exact hs x (List.mem_cons_of_mem g hx))
  termination_by stack processed _ _ =>
    ((U.filter (fun n => decide (n ∉ processed))).length, stack.length)
  decreasing_by
    · exact Prod.Lex.right _ (Nat.lt_succ_self _)
    · exact Prod.Lex.left _ _
        (length_filter_lt_of_unprocessed U g processed
          (hs g (List.mem_cons_self g rest)) hproc)
    · exact Prod.Lex.left _ _
        (length_filter_lt_of_unprocessed U g processed
          (hs g (List.mem_cons_self g rest)) hproc)

/-- Config::load_groups_with_precedence — the stack starts from the merged
config's group list (Vec::pop takes the last element, hence the reverse). -/
def loadGroupsWithPrecedence (files : List (String × String)) (cfg : Config) : Config :=
  loopGroups files (cfg.groups ++ files.flatMap (fun p => (parseC p.2).groups))
    (fun p hp _g hg => List.mem_append.2 (Or.inr (List.mem_flatMap.2 ⟨p, hp, hg⟩)))
    cfg.groups.reverse [] cfg
    (fun _g hg => List.mem_append.2 (Or.inl (List.mem_reverse.1 hg)))

/-- Config::load_all_relevant_config_files_from_path on in-memory
documents: merge the main document, then the host document, then walk the
group documents. File-read failures are outside the model; parse itself
never fails (theorem parse_isOk). -/
def loadAll (main host : Option String) (files : List (String × String)) : Config :=
  let c1 := match main with
    | some s => addIfNotExists Config.empty (parseC s)
    | none => Config.empty
  let c2 := match host with
    | some s => addIfNotExists c1 (parseC s)
    | none => c1
  loadGroupsWithPrecedence files c2

/-- The group traversal only ever rewrites the accumulated config through
add_if_not_exists, which keeps the group list duplicate-free. -/
theorem loopGroups_groups_nodup (files : List (String × String)) (U : List String)
    (hU : ∀ p ∈ files, ∀ g ∈ (parseC p.2).groups, g ∈ U) :
    ∀ (stack processed : List String) (cfg : Config) (hs : ∀ g ∈ stack, g ∈ U),
      cfg.groups.Nodup → (loopGroups files U hU stack processed cfg hs).groups.Nodup
  | [], _, cfg, _, hc => by
    rw [loopGroups]; exact hc
  | g :: rest, processed, cfg, hs, hc => by
    rw [loopGroups]
    by_cases hproc : g ∈ processed
    · simp only [dif_pos hproc]
      exact loopGroups_groups_nodup files U hU rest processed cfg _ hc
    · simp only [dif_neg hproc]
      split
      · exact loopGroups_groups_nodup files U hU rest (g :: processed) cfg _ hc
      · exact loopGroups_groups_nodup files U hU _ (g :: processed) _ _
          (addIfNotExists_groups_nodup cfg _ hc)
  termination_by stack processed _ _ =>
    ((U.filter (fun n => decide (n ∉ processed))).length, stack.length)
  decreasing_by
    all_goals first
    | exact Prod.Lex.right _ (Nat.lt_succ_self _)
    | exact Prod.Lex.left _ _
        (length_filter_lt_of_unprocessed U g processed
          (hs g (List.mem_cons_self g rest)) hproc)

theorem loadAll_groups_nodup (main host : Option String)
    (files : List (String × String)) : (loadAll main host files).groups.Nodup := by
  have hempty : (Config.empty).groups.Nodup := List.nodup_nil
  have h1 : ∀ c : Config, c.groups.Nodup →
      ∀ o : Option String,
        (match o with
          | some s => addIfNotExists c (parseC s)
          | none => c).groups.Nodup := by
    intro c hc o
    cases o with
    | none => exact hc
    | some s => exact addIfNotExists_groups_nodup c _ hc
  unfold loadAll loadGroupsWithPrecedence
  exact loopGroups_groups_nodup _ _ _ _ _ _ _ (h1 _ (h1 _ hempty _) _)

/-! ### Package state (src/core/state.rs)

Three independent string lists; the list mutators are shared between the
planner and the apply driver. Vec::sort is modelled by the stable
mergeSort on the String linear order (UTF-8 byte order and code-point
order agree). -/

structure PackageState where
  untracked : List String
  hidden : List String
  managed : List String
deriving DecidableEq, Repr

def sortStrings (l : List String) : List String :=
  l.mergeSort (fun a b => decide (a ≤ b))

def PackageState.is_untracked (s : PackageState) (p : String) : Bool := s.untracked.contains p

def PackageState.is_hidden (s : PackageState) (p : String) : Bool := s.hidden.contains p

def PackageState.is_managed (s : PackageState) (p : String) : Bool := s.managed.contains p

def PackageState.add_untracked (s : PackageState) (p : String) : PackageState :=
  if s.untracked.contains p then s
  else { s with untracked := sortStrings (s.untracked ++ [p]) }

def PackageState.remove_untracked (s : PackageState) (p : String) : PackageState :=
  { s with untracked := s.untracked.filter (fun x => x ≠ p) }

def PackageState.add_hidden (s : PackageState) (p : String) : PackageState :=
  if s.hidden.contains p then s
  else { s with hidden := sortStrings (s.hidden ++ [p]) }

def PackageState.remove_hidden (s : PackageState) (p : String) : PackageState :=
  { s with hidden := s.hidden.filter (fun x => x ≠ p) }

def PackageState.add_managed (s : PackageState) (p : String) : PackageState :=
  if s.managed.contains p then s
  else { s with managed := sortStrings (s.managed ++ [p]) }

def PackageState.remove_managed (s : PackageState) (p : String) : PackageState :=
  { s with managed := s.managed.filter (fun x => x ≠ p) }

/-! ### Planner (src/core/package.rs)

The package-manager collaborator (paru/pacman) is an oracle: the
installed set, the group predicate and the group-member listing. Its
fallible calls are assumed to answer (a transport error aborts planning
in the source and decides nothing). -/

structure PMOracle where
  installed : List String
  isGroup : String → Bool
  groupMembers : String → List String

inductive PackageAction where
  | install (name : String)
  | remove (name : String)
deriving DecidableEq, Repr

/-- is_package_installed -/
def isPackageInstalled (pm : PMOracle) (p : String) : Bool := pm.installed.contains p

/-- is_package_or_group_installed: a directly installed name is installed;
otherwise a group is installed when it is non-empty and every member is
installed. -/
def isPackageOrGroupInstalled (pm : PMOracle) (p : String) : Bool :=
  if isPackageInstalled pm p then true
  else if pm.isGroup p then
    let groupPackages := pm.groupMembers p
    if groupPackages.isEmpty then false
    else groupPackages.all (fun m => pm.installed.contains m)
  else false

/-- plan_package_actions: Install every desired-but-not-installed name,
Remove every installed name that is neither desired nor outside managed. -/
def planPackageActions (config : Config) (state : PackageState) (pm : PMOracle) :
    List PackageAction :=
  let desired := config.packages.map Prod.fst
  (desired.filterMap fun p =>
    if isPackageOrGroupInstalled pm p then none else some (.install p))
  ++ (pm.installed.filterMap fun p =>
    if ¬ desired.contains p ∧ state.is_managed p then some (.remove p) else none)

/-! ### Apply driver state updates (src/commands/apply) -/

/-- handle_removals: on dry run, declined confirmation or a failed remove
command the state is untouched; otherwise every removed name is dropped
from the managed list. confirmOk is the user's answer,
removeOk the outcome of the package-manager removal command. -/
def handleRemovals (toRemove : List String) (dryRun confirmOk removeOk : Bool)
    (state : PackageState) : PackageState :=
  if toRemove.isEmpty then state
  else if dryRun then state
  else if ¬ confirmOk then state
  else if ¬ removeOk then state
  else toRemove.foldl PackageState.remove_managed state

/-- The post-install marking loop of apply::run: a name from the install
list joins managed only when is_package_or_group_installed re-verifies
it; verification errors only print. verify is the oracle for
is_package_or_group_installed at that point of the run. -/
def markInstalled (toInstall : List String) (verify : String → Except String Bool)
    (state : PackageState) : PackageState :=
  toInstall.foldl
    (fun st p =>
      match verify p with
      | .ok true => if st.is_managed p then st else st.add_managed p
      | .ok false => st
      | .error _ => st)
    state

/-- The dry-run guard around the marking loop. -/
def postInstallManaged (dryRun : Bool) (toInstall : List String)
    (verify : String → Except String Bool) (state : PackageState) : PackageState :=
  if dryRun then state else markInstalled toInstall verify state

/-! ### Dotfile sync engine (src/domain/dotfiles.rs)

Filesystem model: a flat map from absolute path strings to nodes. A file
node carries its byte content and optional modification time; metadata
size is the content length (as the OS guarantees). A directory node
carries the recursive listing hash_directory would walk, already in the
canonical (sorted relative path, content) form, and SHA-256 is treated
as injective, so equality of directory hashes is equality of listings
and equality of file hashes is equality of contents. Reads of existing
nodes succeed; copy failures are injected through an oracle set of
failing destination paths. -/

abbrev Content := List Nat

inductive FsNode where
  | file (content : Content) (mtime : Option Nat)
  | dir (listing : List (String × Content))
deriving DecidableEq, Repr

abbrev Fs := List (String × FsNode)

def fsGet (fs : Fs) (p : String) : Option FsNode := alookup p fs

structure DotfileMapping where
  source : String
  destination : String
deriving DecidableEq, Repr

inductive DotfileStatus where
  | create
  | update
  | conflict
  | skip
  | uptodate
deriving DecidableEq, Repr

structure DotfileAction where
  source : String
  destination : String
  status : DotfileStatus
  reason : Option String
deriving DecidableEq, Repr

/-- resolve_source_path: absolute and explicitly relative paths pass
through; anything else lives under HOME/.owl/dotfiles. -/
def resolveSourcePath (home source : String) : String :=
  if strHasPre "/" source || strHasPre "./" source || strHasPre "../" source then source
  else home ++ "/.owl/dotfiles/" ++ source

/-- resolve_destination_path: a leading tilde is replaced by HOME. -/
def resolveDestinationPath (home dest : String) : String :=
  if strHasPre "~" dest then home ++ dest.drop 1 else dest

/-- files_differ_quick: size fast path, then the mtime fast path, then a
full content-hash comparison. -/
def filesDifferQuick (c1 : Content) (mt1 : Option Nat) (c2 : Content) (mt2 : Option Nat) :
    Bool :=
  if c1.length ≠ c2.length then true
  else
    match mt1, mt2 with
    | some st, some dt => if st = dt then false else decide (c1 ≠ c2)
    | _, _ => decide (c1 ≠ c2)

/-- The per-mapping classification of analyze_dotfiles. -/
def analyzeMapping (fs : Fs) (home : String) (m : DotfileMapping) : DotfileAction :=
  let sp := resolveSourcePath home m.source
  let dp := resolveDestinationPath home m.destination
  match fsGet fs sp with
  | none => ⟨m.source, m.destination, .conflict, some "source file not found"⟩
  | some srcNode =>
    match fsGet fs dp with
    | none => ⟨m.source, m.destination, .create, none⟩
    | some destNode =>
      match srcNode, destNode with
      | .dir _, .file _ _ =>
        ⟨m.source, m.destination, .conflict, some "destination is file, source is directory"⟩
      | .file _ _, .dir _ =>
        ⟨m.source, m.destination, .conflict, some "destination is directory, source is file"⟩
      | .file c1 mt1, .file c2 mt2 =>
        if filesDifferQuick c1 mt1 c2 mt2 then
          ⟨m.source, m.destination, .update, none⟩
        else
          ⟨m.source, m.destination, .uptodate, some "content matches"⟩
      | .dir l1, .dir l2 =>
        if l1 = l2 then ⟨m.source, m.destination, .uptodate, some "content matches"⟩
        else ⟨m.source, m.destination, .update, none⟩

/-- analyze_dotfiles -/
def analyzeDotfiles (fs : Fs) (home : String) (mappings : List DotfileMapping) :
    List DotfileAction :=
  mappings.map (analyzeMapping fs home)

/-- copy_path: parent creation is a no-op on the flat map; the existing
destination is removed and the source node written wholesale (for
directories copy_directory_recursive copies the subtree). failSet is the
oracle of destinations whose write fails. -/
def copyPath (fs : Fs) (failSet : List String) (sp dp : String) : Except String Fs :=
  if failSet.contains dp then .error ("Failed to copy " ++ sp ++ " to " ++ dp)
  else
    match fsGet fs sp with
    | some n => .ok (ainsert dp n fs)
    | none => .error ("Failed to read " ++ sp)

/-- A status the apply loop passes through untouched. -/
def skipStatus (st : DotfileStatus) : Bool :=
  match st with
  | .conflict => true
  | .uptodate => true
  | .skip => true
  | _ => false

/-- The non-dry-run loop of apply_dotfiles: copy every Create/Update
action, downgrade a failed copy to Conflict and keep going. -/
def applyGo (home : String) (failSet : List String) (fs : Fs) :
    List DotfileAction → Fs × List DotfileAction
  | [] => (fs, [])
  | a :: rest =>
    if skipStatus a.status then
      let r := applyGo home failSet fs rest
      (r.1, a :: r.2)
    else
      match copyPath fs failSet (resolveSourcePath home a.source)
          (resolveDestinationPath home a.destination) with
      | .ok fs' =>
        let r := applyGo home failSet fs' rest
        (r.1, a :: r.2)
      | .error e =>
        let r := applyGo home failSet fs rest
        (r.1, { a with status := .conflict, reason := some ("Copy failed: " ++ e) } :: r.2)

/-- apply_dotfiles: analyze, and on a dry run return the classification
with the filesystem untouched. -/
def applyDotfiles (fs : Fs) (home : String) (failSet : List String)
    (mappings : List DotfileMapping) (dryRun : Bool) : Fs × List DotfileAction :=
  let actions := analyzeDotfiles fs home mappings
  if dryRun then (fs, actions) else applyGo home failSet fs actions

/-! ### Mapping derivation (src/domain/dotfiles.rs get_dotfile_mappings)

The domain revision of the Config data model stores at most one :config
entry per package. -/

structure DPackage where
  config : Option String
  service : Option String
  env_vars : List (String × String)
deriving DecidableEq, Repr

structure DConfig where
  packages : List (String × DPackage)
  groups : List String
  env_vars : List (String × String)
deriving DecidableEq, Repr

/-- Rust Path::file_name on Unix paths: the last non-empty, non-dot
component, or none when the path is empty, a root, or ends in a parent
reference. -/
def fileNameOf (s : String) : Option String :=
  let comps := (splitChar '/' s.data).filter (fun c => c ≠ [] && c ≠ ['.'])
  match comps.getLast? with
  | none => none
  | some c => if c = ['.', '.'] then none else some ⟨c⟩

/-- get_dotfile_mappings: split an entry on the literal separator, or
treat the whole (trimmed) value as the destination and derive the source
from its file name, falling back to the whole value when it has none. -/
def getDotfileMappings (config : DConfig) : List DotfileMapping :=
  config.packages.filterMap fun kv =>
    match kv.2.config with
    | none => none
    | some configStr =>
      match splitOnce configStr " -> " with
      | some (src, dst) => some ⟨strTrim src, strTrim dst⟩
      | none =>
        let destPath := strTrim configStr
        let filename := (fileNameOf destPath).getD destPath
        some ⟨filename, destPath⟩

/-! ## Claim theorems -/

theorem strHasPre_false_of {p q s : String} {a : Char} {t : List Char}
    (hp : p.data = a :: t) (hq : q.data = [a]) (hone : strHasPre q s = false) :
    strHasPre p s = false := by
  cases hres : strHasPre p s
  · rfl
  · exfalso
    have h' : charsPre (a :: t) s.data = true := by
      have hres' := hres
      unfold strHasPre at hres'
      rw [hp] at hres'
      exact hres'
    have hhead := charsPre_head h'
    unfold strHasPre at hone
    rw [hq] at hone
    rw [hhead] at hone
    cases hone

/-- C8: Config::parse succeeds on every input string — unknown lines,
directives outside a package block and env lines without an equals sign
are silently ignored, so no error branch of parse is reachable. -/
theorem claim_C8 (content : String) : ∃ c, Config.parse content = Except.ok c :=
  parse_isOk content

/-- C9: re-declaring a package name — by @package/@pkg, or by a bare name
while the @packages/@pkgs section is open — replaces whatever entry was
there with a fresh Package carrying no config, service or env directives,
whatever the prior parser state was. -/
theorem claim_C9 (cfg : Config) (cur : Option String) (insec : Bool) (line : String) :
    (strHasPre "@package " line = true →
      alookup (strTrim (line.drop 9)) (parseLineStep cfg cur insec line).1.packages
        = some freshPackage)
  ∧ (strHasPre "@pkg " line = true → strHasPre "@package " line = false →
      alookup (strTrim (line.drop 5)) (parseLineStep cfg cur insec line).1.packages
        = some freshPackage)
  ∧ (insec = true → strHasPre "@" line = false → strHasPre ":" line = false →
      alookup (strTrim line) (parseLineStep cfg cur insec line).1.packages
        = some freshPackage) := by
  refine ⟨?_, ?_, ?_⟩
  · intro h
    simp only [parseLineStep, parsePackageDeclaration, h, Bool.true_or, if_pos]
    exact alookup_ainsert_self ..
  · intro h5 h9
    simp only [parseLineStep, parsePackageDeclaration, h5, h9, Bool.false_or, if_pos,
      Bool.false_eq_true, if_false]
    exact alookup_ainsert_self ..
  · intro hin hat hcolon
    have hpkg : strHasPre "@package " line = false := strHasPre_false_of rfl rfl hat
    have hpkg5 : strHasPre "@pkg " line = false := strHasPre_false_of rfl rfl hat
    have henv : strHasPre "@env " line = false := strHasPre_false_of rfl rfl hat
    have hgrp : strHasPre "@group " line = false := strHasPre_false_of rfl rfl hat
    have hcfg : strHasPre ":config " line = false := strHasPre_false_of rfl rfl hcolon
    have hcfg5 : strHasPre ":cfg " line = false := strHasPre_false_of rfl rfl hcolon
    have hsvc : strHasPre ":service " line = false := strHasPre_false_of rfl rfl hcolon
    have hpenv : strHasPre ":env " line = false := strHasPre_false_of rfl rfl hcolon
    have hne1 : line ≠ "@packages" := by
      intro he
      rw [he] at hat
      exact absurd hat (by decide)
    have hne2 : line ≠ "@pkgs" := by
      intro he
      rw [he] at hat
      exact absurd hat (by decide)
    simp only [parseLineStep, parsePackageInSection, hin, hat, hcolon, hpkg, hpkg5, henv,
      hgrp, hcfg, hcfg5, hsvc, hpenv, hne1, hne2, Bool.or_self, Bool.false_eq_true,
      if_false, or_self, Bool.not_false, Bool.and_self, if_true]
    exact alookup_ainsert_self ..

/-- Witness for C9: the package vim, first declared with directives, is
re-declared by @package and by a bare section name; both lookups yield
the fresh empty entry. -/
theorem claim_C9_witness :
    alookup (strTrim ("@package vim".drop 9))
        (parseLineStep ⟨[("vim", ⟨["a -> b"], some "svc", []⟩)], [], []⟩
          (some "vim") false "@package vim").1.packages = some freshPackage
  ∧ alookup (strTrim "vim")
        (parseLineStep ⟨[("vim", ⟨["a -> b"], some "svc", []⟩)], [], []⟩
          none true "vim").1.packages = some freshPackage :=
  ⟨(claim_C9 _ _ _ _).1 (by decide),
   (claim_C9 _ _ _ _).2.2 rfl (by decide) (by decide)⟩

/-- C2 counterexample: the load chain merges the main document first and
the host document second; for the package p declared in both, the merged
entry is the main document's one — the first-merged value wins, not the
last-merged. -/
theorem claim_C2_counterexample :
    alookup "p"
        (addIfNotExists
          (addIfNotExists Config.empty ⟨[("p", ⟨["a -> b"], none, []⟩)], [], []⟩)
          ⟨[("p", ⟨["c -> d"], none, []⟩)], [], []⟩).packages
      = some ⟨["a -> b"], none, []⟩
  ∧ (⟨["a -> b"], none, []⟩ : Package) ≠ ⟨["c -> d"], none, []⟩ := by
  constructor
  · decide
  · decide

/-- C2 amended: add_if_not_exists never merges fields; a package or env
key already present in the accumulated (earlier-merged, higher-
precedence) config keeps its entry wholesale and the later document's
same-key entry is dropped, while groups are unioned without duplicates.
So for a key present in several documents the first-merged-in-order
value wins. -/
theorem claim_C2 (self other : Config) (n g : String) :
    (alookup n (addIfNotExists self other).packages
      = Option.or (alookup n self.packages) (alookup n other.packages))
  ∧ (alookup n (addIfNotExists self other).env_vars
      = Option.or (alookup n self.env_vars) (alookup n other.env_vars))
  ∧ (g ∈ (addIfNotExists self other).groups ↔ g ∈ self.groups ∨ g ∈ other.groups) := by
  unfold addIfNotExists
  dsimp only
  exact ⟨alookup_foldl_orInsert other.packages n self.packages,
    alookup_foldl_orInsert other.env_vars n self.env_vars,
    mem_foldl_addDistinct other.groups g self.groups⟩

/-- C5: the cycle-safe group traversal terminates on every group graph —
loadAll is a total function, defined by well-founded recursion on the
unprocessed part of the finite group-name universe — and the resolved
groups list of the merged config holds each name at most once. -/
theorem claim_C5 (main host : Option String) (files : List (String × String)) :
    (loadAll main host files).groups.Nodup :=
  loadAll_groups_nodup main host files

theorem ite_some_eq_some {α : Type} {c : Prop} [Decidable c] {a b : α} :
    ((if c then some a else none) = some b) ↔ (c ∧ a = b) := by
  split <;> simp_all

theorem ite_none_eq_some {α : Type} {c : Prop} [Decidable c] {a b : α} :
    ((if c then none else some a) = some b) ↔ (¬ c ∧ a = b) := by
  split <;> simp_all

/-- C1: the planner emits Install exactly for the desired package names
that is_package_or_group_installed rejects, and Remove exactly for the
installed names that are neither desired nor outside the managed list;
a name not directly installed counts as installed only when it is a
non-empty group all of whose members are installed; nothing else is
emitted. -/
theorem claim_C1 (config : Config) (state : PackageState) (pm : PMOracle) (p : String) :
    ((PackageAction.install p ∈ planPackageActions config state pm) ↔
      (p ∈ config.packages.map Prod.fst ∧ isPackageOrGroupInstalled pm p = false))
  ∧ ((PackageAction.remove p ∈ planPackageActions config state pm) ↔
      (p ∈ pm.installed ∧ p ∉ config.packages.map Prod.fst ∧ p ∈ state.managed))
  ∧ (isPackageOrGroupInstalled pm p = true →
      p ∈ pm.installed ∨
        (pm.isGroup p = true ∧ pm.groupMembers p ≠ [] ∧
          ∀ m ∈ pm.groupMembers p, m ∈ pm.installed))
  ∧ (∀ a ∈ planPackageActions config state pm,
      (∃ q, a = PackageAction.install q) ∨ (∃ q, a = PackageAction.remove q)) := by
  refine ⟨?_, ?_, ?_, ?_⟩
  · simp only [planPackageActions, List.mem_append, List.mem_filterMap,
      ite_none_eq_some, ite_some_eq_some]
    constructor
    · rintro (⟨q, hq, hni, heq⟩ | ⟨q, hq, hc, heq⟩)
      · obtain rfl : q = p := by simpa using heq
        exact ⟨hq, Bool.eq_false_iff.2 hni⟩
      · simp at heq
    · rintro ⟨hmem, hni⟩
      exact Or.inl ⟨p, hmem, Bool.eq_false_iff.1 hni, rfl⟩
  · simp only [planPackageActions, List.mem_append, List.mem_filterMap,
      ite_none_eq_some, ite_some_eq_some]
    constructor
    · rintro (⟨q, hq, hni, heq⟩ | ⟨q, hq, hc, heq⟩)
      · simp at heq
      · obtain rfl : q = p := by simpa using heq
        obtain ⟨hnd, hm⟩ := hc
        refine ⟨hq, ?_, ?_⟩
        · intro hmem
          exact hnd (by simpa using hmem)
        · simpa [PackageState.is_managed] using hm
    · rintro ⟨hinst, hnd, hm⟩
      refine Or.inr ⟨p, hinst, ⟨?_, ?_⟩, rfl⟩
      · simpa using hnd
      · simpa [PackageState.is_managed] using hm
  · intro h
    unfold isPackageOrGroupInstalled at h
    by_cases hdir : isPackageInstalled pm p = true
    · left
      simpa [isPackageInstalled] using hdir
    · right
      rw [if_neg (by simpa using hdir)] at h
      by_cases hgrp : pm.isGroup p = true
      · rw [if_pos hgrp] at h
        by_cases hemp : (pm.groupMembers p).isEmpty
        · simp [hemp] at h
        · refine ⟨hgrp, by simpa using hemp, ?_⟩
          rw [if_neg (by simpa using hemp)] at h
          intro m hm
          have := List.all_eq_true.1 h m hm
          simpa using this
      · rw [if_neg hgrp] at h
        cases h
  · intro a ha
    simp only [planPackageActions, List.mem_append, List.mem_filterMap,
      ite_none_eq_some, ite_some_eq_some] at ha
    rcases ha with ⟨q, _, _, heq⟩ | ⟨q, _, _, heq⟩
    · exact Or.inl ⟨q, heq.symm⟩
    · exact Or.inr ⟨q, heq.symm⟩

/-- Witness for C1: one desired-but-uninstalled group name is installed,
one installed unmanaged-by-config name in managed is removed. -/
theorem claim_C1_witness :
    (PackageAction.install "grp" ∈
      planPackageActions ⟨[("vim", freshPackage), ("grp", freshPackage)], [], []⟩
        ⟨[], [], ["old"]⟩
        ⟨["old", "vim"], (fun n => n = "grp"),
          (fun n => if n = "grp" then ["m1", "m2"] else [])⟩)
  ∧ (PackageAction.remove "old" ∈
      planPackageActions ⟨[("vim", freshPackage), ("grp", freshPackage)], [], []⟩
        ⟨[], [], ["old"]⟩
        ⟨["old", "vim"], (fun n => n = "grp"),
          (fun n => if n = "grp" then ["m1", "m2"] else [])⟩) :=
  ⟨((claim_C1 _ _ _ "grp").1).2 (by constructor <;> decide),
   ((claim_C1 _ _ _ "old").2.1).2 (by refine ⟨by decide, by decide, by decide⟩)⟩

theorem remove_managed_not_mem (s : PackageState) (p : String) :
    p ∉ (s.remove_managed p).managed := by
  simp [PackageState.remove_managed, List.mem_filter]

theorem remove_managed_mono {q : String} (s : PackageState) (r : String)
    (h : q ∉ s.managed) : q ∉ (s.remove_managed r).managed := by
  intro hc
  exact h (List.mem_of_mem_filter hc)

theorem foldl_remove_managed_preserves {p : String} (toRemove : List String) :
    ∀ s : PackageState, p ∉ s.managed →
      p ∉ (toRemove.foldl PackageState.remove_managed s).managed := by
  induction toRemove with
  | nil => intro s h; exact h
  | cons q t ih =>
    intro s h
    exact ih (s.remove_managed q) (remove_managed_mono s q h)

theorem foldl_remove_managed_kills {p : String} (toRemove : List String) :
    ∀ s : PackageState, p ∈ toRemove →
      p ∉ (toRemove.foldl PackageState.remove_managed s).managed := by
  induction toRemove with
  | nil => intro s h; simp at h
  | cons q t ih =>
    intro s h
    rcases List.mem_cons.1 h with rfl | ht
    · exact foldl_remove_managed_preserves t _ (remove_managed_not_mem s p)
    · exact ih _ ht

theorem mem_add_managed {p q : String} (s : PackageState)
    (h : p ∈ (s.add_managed q).managed) : p ∈ s.managed ∨ p = q := by
  unfold PackageState.add_managed at h
  split at h
  · exact Or.inl h
  · have := (List.mergeSort_perm (s.managed ++ [q]) _).mem_iff.1 h
    simpa using this

theorem mem_markInstalled {p : String} (toInstall : List String)
    (verify : String → Except String Bool) :
    ∀ s : PackageState, p ∈ (markInstalled toInstall verify s).managed →
      p ∈ s.managed ∨ (p ∈ toInstall ∧ verify p = .ok true) := by
  induction toInstall with
  | nil => intro s h; exact Or.inl h
  | cons q t ih =>
    intro s h
    unfold markInstalled at h ih
    simp only [List.foldl_cons] at h
    cases hv : verify q with
    | error e =>
      rw [hv] at h
      rcases ih s h with h' | ⟨ht, hok⟩
      · exact Or.inl h'
      · exact Or.inr ⟨List.mem_cons_of_mem _ ht, hok⟩
    | ok b =>
      cases b with
      | false =>
        rw [hv] at h
        rcases ih s h with h' | ⟨ht, hok⟩
        · exact Or.inl h'
        · exact Or.inr ⟨List.mem_cons_of_mem _ ht, hok⟩
      | true =>
        rw [hv] at h
        by_cases hm : s.is_managed q = true
        · rw [if_pos hm] at h
          rcases ih s h with h' | ⟨ht, hok⟩
          · exact Or.inl h'
          · exact Or.inr ⟨List.mem_cons_of_mem _ ht, hok⟩
        · rw [if_neg hm] at h
          rcases ih _ h with h' | ⟨ht, hok⟩
          · rcases mem_add_managed s h' with h'' | rfl
            · exact Or.inl h''
            · exact Or.inr ⟨List.mem_cons_self _ _, hv⟩
          · exact Or.inr ⟨List.mem_cons_of_mem _ ht, hok⟩

/-- C6: in a non-dry-run apply, once the removal command succeeded (after
confirmation) every removed name is gone from managed; and a name from
the install list enters managed only when the independent
is_package_or_group_installed re-verification answered true — the
install command's own exit status is never consulted. -/
theorem claim_C6 (toRemove toInstall : List String) (confirmOk removeOk : Bool)
    (verify : String → Except String Bool) (s s' : PackageState) :
    (confirmOk = true → removeOk = true → ∀ p ∈ toRemove,
      p ∉ (handleRemovals toRemove false confirmOk removeOk s).managed)
  ∧ (∀ (dryRun : Bool) (p : String),
      p ∈ (postInstallManaged dryRun toInstall verify s').managed →
        p ∈ s'.managed ∨ (p ∈ toInstall ∧ verify p = .ok true)) := by
  constructor
  · intro hc hr p hp
    subst hc
    subst hr
    have hne : toRemove.isEmpty = false := by
      cases toRemove with
      | nil => simp at hp
      | cons a t => rfl
    have hval : handleRemovals toRemove false true true s
        = toRemove.foldl PackageState.remove_managed s := by
      unfold handleRemovals
      rw [hne]
      simp
    rw [hval]
    exact foldl_remove_managed_kills toRemove s hp
  · intro dryRun p hp
    unfold postInstallManaged at hp
    split at hp
    · exact Or.inl hp
    · exact mem_markInstalled toInstall verify s' hp

/-- Witness for C6: removing z deletes it from managed; of the two
installed candidates only the one the verifier confirms joins managed. -/
theorem claim_C6_witness :
    ("z" ∉ (handleRemovals ["z"] false true true ⟨[], [], ["z", "w"]⟩).managed)
  ∧ ("b" ∈ (postInstallManaged false ["a", "b"]
        (fun p => if p = "a" then (.ok true : Except String Bool) else .ok false)
        ⟨[], [], ["z"]⟩).managed →
      "b" ∈ (⟨[], [], ["z"]⟩ : PackageState).managed ∨ ("b" ∈ ["a", "b"] ∧
        (if "b" = "a" then (.ok true : Except String Bool) else .ok false)
          = Except.ok true)) :=
  ⟨(claim_C6 ["z"] [] true true (fun _ => .ok false) ⟨[], [], ["z", "w"]⟩ ⟨[], [], []⟩).1
      rfl rfl "z" (by decide),
   fun h =>
    (claim_C6 [] ["a", "b"] true true
        (fun p => if p = "a" then (.ok true : Except String Bool) else .ok false)
        ⟨[], [], []⟩ ⟨[], [], ["z"]⟩).2 false "b" h⟩

theorem sortStrings_perm (l : List String) : (sortStrings l).Perm l :=
  List.mergeSort_perm l _

theorem sortStrings_sorted (l : List String) : (sortStrings l).Sorted (· ≤ ·) := by
  have h : (l.mergeSort (fun a b : String => decide (a ≤ b))).Pairwise
      (fun a b : String => decide (a ≤ b)) :=
    @List.sorted_mergeSort String (fun a b : String => decide (a ≤ b))
      (fun a b c h1 h2 =>
        decide_eq_true (le_trans (of_decide_eq_true h1) (of_decide_eq_true h2)))
      (fun a b : String => by
        simp only [Bool.or_eq_true, decide_eq_true_eq]
        exact le_total a b)
      l
  exact h.imp (fun hab => of_decide_eq_true hab)

theorem addsort_nodup (l : List String) (p : String) (hn : l.Nodup)
    (hc : p ∉ l) : (sortStrings (l ++ [p])).Nodup :=
  ((sortStrings_perm (l ++ [p])).nodup_iff).2 (by simp [List.nodup_append, hn, hc])

theorem count_filter_ne (l : List String) (p x : String) (hx : x ≠ p) :
    (l.filter (fun y => y ≠ p)).count x = l.count x := by
  induction l with
  | nil => rfl
  | cons a t ih =>
    by_cases ha : a = p
    · subst ha
      rw [List.filter_cons_of_neg (by simp)]
      rw [List.count_cons, ih]
      simp only [beq_iff_eq, if_neg (fun hc : a = x => hx hc.symm), Nat.add_zero]
    · rw [List.filter_cons_of_pos (by simp [ha])]
      rw [List.count_cons, List.count_cons, ih]

/-- C10: each add mutator is a no-op when the name is present and
otherwise inserts the name and sorts, so a duplicate-free sorted list
stays duplicate-free and sorted; each remove mutator deletes every
occurrence of the name and preserves the multiplicity of every other
entry. -/
theorem claim_C10 (s : PackageState) (p x : String) :
    ((s.untracked.contains p = true → s.add_untracked p = s)
      ∧ (s.untracked.contains p = false →
          (s.add_untracked p).untracked.Perm (s.untracked ++ [p])
            ∧ (s.add_untracked p).untracked.Sorted (· ≤ ·))
      ∧ (s.untracked.Nodup → s.untracked.Sorted (· ≤ ·) →
          (s.add_untracked p).untracked.Nodup
            ∧ (s.add_untracked p).untracked.Sorted (· ≤ ·))
      ∧ (p ∉ (s.remove_untracked p).untracked)
      ∧ (x ≠ p → (s.remove_untracked p).untracked.count x = s.untracked.count x))
  ∧ ((s.hidden.contains p = true → s.add_hidden p = s)
      ∧ (s.hidden.contains p = false →
          (s.add_hidden p).hidden.Perm (s.hidden ++ [p])
            ∧ (s.add_hidden p).hidden.Sorted (· ≤ ·))
      ∧ (s.hidden.Nodup → s.hidden.Sorted (· ≤ ·) →
          (s.add_hidden p).hidden.Nodup ∧ (s.add_hidden p).hidden.Sorted (· ≤ ·))
      ∧ (p ∉ (s.remove_hidden p).hidden)
      ∧ (x ≠ p → (s.remove_hidden p).hidden.count x = s.hidden.count x))
  ∧ ((s.managed.contains p = true → s.add_managed p = s)
      ∧ (s.managed.contains p = false →
          (s.add_managed p).managed.Perm (s.managed ++ [p])
            ∧ (s.add_managed p).managed.Sorted (· ≤ ·))
      ∧ (s.managed.Nodup → s.managed.Sorted (· ≤ ·) →
          (s.add_managed p).managed.Nodup ∧ (s.add_managed p).managed.Sorted (· ≤ ·))
      ∧ (p ∉ (s.remove_managed p).managed)
      ∧ (x ≠ p → (s.remove_managed p).managed.count x = s.managed.count x)) := by
  refine ⟨⟨?_, ?_, ?_, ?_, ?_⟩, ⟨?_, ?_, ?_, ?_, ?_⟩, ⟨?_, ?_, ?_, ?_, ?_⟩⟩
  · intro h
    unfold PackageState.add_untracked
    rw [if_pos h]
  · intro h
    simp only [PackageState.add_untracked, h, Bool.false_eq_true, if_false]
    exact ⟨sortStrings_perm _, sortStrings_sorted _⟩
  · intro hn hs
    unfold PackageState.add_untracked
    split
    · exact ⟨hn, hs⟩
    · rename_i hc
      exact ⟨addsort_nodup _ _ hn (by simpa using hc), sortStrings_sorted _⟩
  · simp [PackageState.remove_untracked, List.mem_filter]
  · intro hx
    exact count_filter_ne s.untracked p x hx
  · intro h
    unfold PackageState.add_hidden
    rw [if_pos h]
  · intro h
    simp only [PackageState.add_hidden, h, Bool.false_eq_true, if_false]
    exact ⟨sortStrings_perm _, sortStrings_sorted _⟩
  · intro hn hs
    unfold PackageState.add_hidden
    split
    · exact ⟨hn, hs⟩
    · rename_i hc
      exact ⟨addsort_nodup _ _ hn (by simpa using hc), sortStrings_sorted _⟩
  · simp [PackageState.remove_hidden, List.mem_filter]
  · intro hx
    exact count_filter_ne s.hidden p x hx
  · intro h
    unfold PackageState.add_managed
    rw [if_pos h]
  · intro h
    simp only [PackageState.add_managed, h, Bool.false_eq_true, if_false]
    exact ⟨sortStrings_perm _, sortStrings_sorted _⟩
  · intro hn hs
    unfold PackageState.add_managed
    split
    · exact ⟨hn, hs⟩
    · rename_i hc
      exact ⟨addsort_nodup _ _ hn (by simpa using hc), sortStrings_sorted _⟩
  · simp [PackageState.remove_managed, List.mem_filter]
  · intro hx
    exact count_filter_ne s.managed p x hx

/-- Witness for C10: adding c to the sorted duplicate-free list [b, d]
keeps it duplicate-free and sorted; removing b deletes both copies and
keeps the count of d. -/
theorem claim_C10_witness :
    ((⟨["b", "d"], [], ["b", "b", "d"]⟩ : PackageState).add_untracked "c").untracked.Nodup
  ∧ ((⟨["b", "d"], [], ["b", "b", "d"]⟩ : PackageState).add_untracked
      "c").untracked.Sorted (· ≤ ·)
  ∧ ("b" ∉ ((⟨["b", "d"], [], ["b", "b", "d"]⟩ : PackageState).remove_managed "b").managed)
  ∧ (((⟨["b", "d"], [], ["b", "b", "d"]⟩ : PackageState).remove_managed
      "b").managed.count "d"
        = (["b", "b", "d"] : List String).count "d") := by
  obtain ⟨⟨_, _, h3, _, _⟩, _, ⟨_, _, _, h4, h5⟩⟩ :=
    claim_C10 ⟨["b", "d"], [], ["b", "b", "d"]⟩ "b" "d"
  obtain ⟨⟨_, _, h3c, _, _⟩, _⟩ := claim_C10 ⟨["b", "d"], [], ["b", "b", "d"]⟩ "c" "d"
  have hsorted : List.Sorted (· ≤ ·) (["b", "d"] : List String) := by
    have hbd : ("b" : String) ≤ "d" := String.le_iff_toList_le.2 (by decide)
    exact List.sorted_cons.2
      ⟨fun b hb => by rw [List.mem_singleton.1 hb]; exact hbd,
       List.sorted_singleton "d"⟩
  refine ⟨?_, ?_, h4, h5 (by decide)⟩
  · exact (h3c (by decide) hsorted).1
  · exact (h3c (by decide) hsorted).2

theorem filesDifferQuick_eq_false_iff (c1 c2 : Content) (mt1 mt2 : Option Nat) :
    filesDifferQuick c1 mt1 c2 mt2 = false ↔
      (c1 = c2 ∨ (c1.length = c2.length ∧ ∃ t, mt1 = some t ∧ mt2 = some t)) := by
  unfold filesDifferQuick
  by_cases hlen : c1.length = c2.length
  · rw [if_neg (by simpa using hlen)]
    cases mt1 with
    | none =>
      simp only [decide_not]
      constructor
      · intro h
        exact Or.inl (by simpa using h)
      · rintro (rfl | ⟨_, ⟨t, ht, _⟩⟩)
        · simp
        · cases ht
    | some st =>
      cases mt2 with
      | none =>
        simp only [decide_not]
        constructor
        · intro h
          exact Or.inl (by simpa using h)
        · rintro (rfl | ⟨_, ⟨t, _, ht⟩⟩)
          · simp
          · cases ht
      | some dt =>
        dsimp only
        by_cases hts : st = dt
        · subst hts
          simp only [if_pos rfl]
          constructor
          · intro _
            exact Or.inr ⟨hlen, st, rfl, rfl⟩
          · intro _
            rfl
        · rw [if_neg hts]
          simp only [decide_not]
          constructor
          · intro h
            exact Or.inl (by simpa using h)
          · rintro (rfl | ⟨_, ⟨t, ht1, ht2⟩⟩)
            · simp
            · exact absurd ((Option.some_inj.1 ht1).trans (Option.some_inj.1 ht2).symm) hts
  · rw [if_pos (by simpa using hlen)]
    constructor
    · intro h
      cases h
    · rintro (rfl | ⟨h, _⟩)
      · exact absurd rfl hlen
      · exact absurd h hlen

/-- C3: per-mapping classification — a missing source is a Conflict, a
missing destination a Create, a file/directory kind mismatch a Conflict;
for two regular files the status is UpToDate exactly when the contents
agree or the fast path concludes (equal sizes and equal present mtimes),
and Update exactly otherwise — the content hash is consulted only when
the fast path is inconclusive. -/
theorem claim_C3 (fs : Fs) (home : String) (m : DotfileMapping) :
    (fsGet fs (resolveSourcePath home m.source) = none →
      (analyzeMapping fs home m).status = DotfileStatus.conflict)
  ∧ (∀ n, fsGet fs (resolveSourcePath home m.source) = some n →
      fsGet fs (resolveDestinationPath home m.destination) = none →
      (analyzeMapping fs home m).status = DotfileStatus.create)
  ∧ (∀ l c mt, fsGet fs (resolveSourcePath home m.source) = some (FsNode.dir l) →
      fsGet fs (resolveDestinationPath home m.destination) = some (FsNode.file c mt) →
      (analyzeMapping fs home m).status = DotfileStatus.conflict)
  ∧ (∀ c mt l, fsGet fs (resolveSourcePath home m.source) = some (FsNode.file c mt) →
      fsGet fs (resolveDestinationPath home m.destination) = some (FsNode.dir l) →
      (analyzeMapping fs home m).status = DotfileStatus.conflict)
  ∧ (∀ c1 mt1 c2 mt2,
      fsGet fs (resolveSourcePath home m.source) = some (FsNode.file c1 mt1) →
      fsGet fs (resolveDestinationPath home m.destination) = some (FsNode.file c2 mt2) →
      (((analyzeMapping fs home m).status = DotfileStatus.uptodate ↔
          (c1 = c2 ∨ (c1.length = c2.length ∧ ∃ t, mt1 = some t ∧ mt2 = some t)))
        ∧ ((analyzeMapping fs home m).status = DotfileStatus.update ↔
          ¬ (c1 = c2 ∨ (c1.length = c2.length ∧ ∃ t, mt1 = some t ∧ mt2 = some t))))) := by
  refine ⟨?_, ?_, ?_, ?_, ?_⟩
  · intro hsrc
    unfold analyzeMapping
    dsimp only
    rw [hsrc]
  · intro n hsrc hdst
    unfold analyzeMapping
    dsimp only
    rw [hsrc, hdst]
  · intro l c mt hsrc hdst
    unfold analyzeMapping
    dsimp only
    rw [hsrc, hdst]
  · intro c mt l hsrc hdst
    unfold analyzeMapping
    dsimp only
    rw [hsrc, hdst]
  · intro c1 mt1 c2 mt2 hsrc hdst
    unfold analyzeMapping
    dsimp only
    rw [hsrc, hdst]
    dsimp only
    have hchar := filesDifferQuick_eq_false_iff c1 c2 mt1 mt2
    cases hq : filesDifferQuick c1 mt1 c2 mt2 with
    | false =>
      simp only [Bool.false_eq_true, if_false]
      have hr : c1 = c2 ∨ (c1.length = c2.length ∧ ∃ t, mt1 = some t ∧ mt2 = some t) :=
        hchar.1 hq
      simp [hr]
    | true =>
      simp only [if_true]
      have hr : ¬ (c1 = c2 ∨ (c1.length = c2.length ∧ ∃ t, mt1 = some t ∧ mt2 = some t)) :=
        fun hcontra => by rw [hchar.2 hcontra] at hq; cases hq
      simp [hr]

/-- Witness for C3: a missing destination gives Create; two files whose
contents and sizes differ give Update. -/
theorem claim_C3_witness :
    (analyzeMapping [("/h/.owl/dotfiles/a", FsNode.file [1] none)] "/h"
        ⟨"a", "~/.x"⟩).status = DotfileStatus.create
  ∧ (analyzeMapping [("/h/.owl/dotfiles/a", FsNode.file [1, 2] none),
        ("/h/.x", FsNode.file [1] none)] "/h" ⟨"a", "~/.x"⟩).status
      = DotfileStatus.update := by
  constructor
  · exact (claim_C3 _ _ _).2.1 (FsNode.file [1] none) (by decide) (by decide)
  · refine (((claim_C3 _ _ _).2.2.2.2 [1, 2] none [1] none (by decide) (by decide)).2).mpr ?_
    rintro (hc | ⟨hlen, _⟩)
    · exact absurd hc (by decide)
    · exact absurd hlen (by decide)

theorem copyPath_ok {fs fs' : Fs} {failSet : List String} {sp dp : String}
    (h : copyPath fs failSet sp dp = .ok fs') :
    ∃ n, fsGet fs sp = some n ∧ fs' = ainsert dp n fs := by
  unfold copyPath at h
  split at h
  · cases h
  · split at h
    · rename_i n hn
      exact ⟨n, hn, (Except.ok.inj h).symm⟩
    · cases h

theorem alookup_ainsert_isSome {β : Type} {p : String} {fs : List (String × β)}
    (k : String) (v : β) (h : (alookup p fs).isSome = true) :
    (alookup p (ainsert k v fs)).isSome = true := by
  by_cases hk : p = k
  · subst hk
    rw [alookup_ainsert_self]
    rfl
  · rw [alookup_ainsert_ne v fs hk]
    exact h

/-- analyze_dotfiles reports every action under the mapping's own source
string, whatever the classification. -/
theorem analyzeMapping_source (fs : Fs) (home : String) (m : DotfileMapping) :
    (analyzeMapping fs home m).source = m.source := by
  unfold analyzeMapping
  dsimp only
  repeat' split
  all_goals rfl

/-- An action that the apply loop would copy (status not in the
pass-through set) has its source present in the analyzed filesystem. -/
theorem analyzeMapping_source_isSome (fs : Fs) (home : String) (m : DotfileMapping)
    (h : skipStatus (analyzeMapping fs home m).status = false) :
    (fsGet fs (resolveSourcePath home (analyzeMapping fs home m).source)).isSome
      = true := by
  rw [analyzeMapping_source]
  cases hsrc : fsGet fs (resolveSourcePath home m.source) with
  | some n => rfl
  | none =>
    exfalso
    have hst : (analyzeMapping fs home m).status = DotfileStatus.conflict := by
      unfold analyzeMapping
      dsimp only
      rw [hsrc]
    rw [hst] at h
    cases h

/-- How one analysis action relates to the action the apply loop reports
for it: untouched for the pass-through statuses; for a Create/Update
action, kept exactly as-is when its copy succeeds (the destination is
not in the failure set), and downgraded to precisely the Conflict
carrying the copy error as its reason when the copy fails. -/
def applyOutcome (home : String) (failSet : List String) (a r : DotfileAction) : Prop :=
  (skipStatus a.status = true → r = a)
  ∧ (skipStatus a.status = false →
      failSet.contains (resolveDestinationPath home a.destination) = false → r = a)
  ∧ (skipStatus a.status = false →
      failSet.contains (resolveDestinationPath home a.destination) = true →
      r = ⟨a.source, a.destination, DotfileStatus.conflict,
        some ("Copy failed: " ++ ("Failed to copy " ++ resolveSourcePath home a.source
          ++ " to " ++ resolveDestinationPath home a.destination))⟩)

theorem applyGo_spec (home : String) (failSet : List String) :
    ∀ (acts : List DotfileAction) (fs : Fs),
      (∀ a ∈ acts, skipStatus a.status = false →
        (fsGet fs (resolveSourcePath home a.source)).isSome = true) →
      List.Forall₂ (applyOutcome home failSet) acts (applyGo home failSet fs acts).2
    ∧ (∀ p : String,
        (∀ a ∈ acts, skipStatus a.status = false →
          p ≠ resolveDestinationPath home a.destination) →
        fsGet (applyGo home failSet fs acts).1 p = fsGet fs p) := by
  intro acts
  induction acts with
  | nil =>
    intro fs _
    exact ⟨List.Forall₂.nil, fun p _ => rfl⟩
  | cons a rest ih =>
    intro fs hsrc
    have hsrcRest : ∀ b ∈ rest, skipStatus b.status = false →
        (fsGet fs (resolveSourcePath home b.source)).isSome = true :=
      fun b hb => hsrc b (List.mem_cons_of_mem _ hb)
    unfold applyGo
    cases hsk : skipStatus a.status with
    | true =>
      rw [if_pos rfl]
      dsimp only
      constructor
      · exact List.Forall₂.cons
          ⟨fun _ => rfl,
           fun hf _ => absurd hsk (by rw [hf]; exact Bool.false_ne_true),
           fun hf _ => absurd hsk (by rw [hf]; exact Bool.false_ne_true)⟩
          (ih fs hsrcRest).1
      · intro p hp
        exact (ih fs hsrcRest).2 p (fun b hb => hp b (List.mem_cons_of_mem _ hb))
    | false =>
      rw [if_neg Bool.false_ne_true]
      by_cases hfail :
          failSet.contains (resolveDestinationPath home a.destination) = true
      · have hcp : copyPath fs failSet (resolveSourcePath home a.source)
            (resolveDestinationPath home a.destination)
            = .error ("Failed to copy " ++ resolveSourcePath home a.source
              ++ " to " ++ resolveDestinationPath home a.destination) := by
          unfold copyPath
          rw [if_pos hfail]
        rw [hcp]
        dsimp only
        constructor
        · exact List.Forall₂.cons
            ⟨fun ht => absurd ht (by rw [hsk]; exact Bool.false_ne_true),
             fun _ hf => absurd hfail (by rw [hf]; exact Bool.false_ne_true),
             fun _ _ => rfl⟩
            (ih fs hsrcRest).1
        · intro p hp
          exact (ih fs hsrcRest).2 p (fun b hb => hp b (List.mem_cons_of_mem _ hb))
      · obtain ⟨n, hn⟩ := Option.isSome_iff_exists.1
          (hsrc a (List.mem_cons_self a rest) hsk)
        have hcp : copyPath fs failSet (resolveSourcePath home a.source)
            (resolveDestinationPath home a.destination)
            = .ok (ainsert (resolveDestinationPath home a.destination) n fs) := by
          unfold copyPath
          rw [if_neg hfail]
          rw [show fsGet fs (resolveSourcePath home a.source) = some n from hn]
        rw [hcp]
        dsimp only
        have hsrcRest' : ∀ b ∈ rest, skipStatus b.status = false →
            (fsGet (ainsert (resolveDestinationPath home a.destination) n fs)
              (resolveSourcePath home b.source)).isSome = true :=
          fun b hb hbs => alookup_ainsert_isSome _ n (hsrcRest b hb hbs)
        constructor
        · exact List.Forall₂.cons
            ⟨fun ht => absurd ht (by rw [hsk]; exact Bool.false_ne_true),
             fun _ _ => rfl,
             fun _ ht => absurd ht (by
              rw [show failSet.contains (resolveDestinationPath home a.destination)
                  = false from Bool.eq_false_iff.2 hfail]
              exact Bool.false_ne_true)⟩
            (ih _ hsrcRest').1
        · intro p hp
          have hne : p ≠ resolveDestinationPath home a.destination :=
            hp a (List.mem_cons_self a rest) hsk
          rw [(ih _ hsrcRest').2 p (fun b hb => hp b (List.mem_cons_of_mem _ hb))]
          exact alookup_ainsert_ne n fs hne

/-- C4: apply_dotfiles with dry_run performs no write and returns exactly
the analysis; without dry_run the reported list corresponds one-to-one
to the analysis (every mapping is processed, no run-wide abort), each
pass-through action (Conflict, UpToDate, Skip) is returned untouched, a
Create/Update action whose copy succeeds is returned unchanged, a
Create/Update action whose copy fails is downgraded to exactly the
Conflict carrying the copy error as its reason, and the filesystem
changes only at destinations of Create/Update actions. -/
theorem claim_C4 (fs : Fs) (home : String) (failSet : List String)
    (mappings : List DotfileMapping) :
    (applyDotfiles fs home failSet mappings true = (fs, analyzeDotfiles fs home mappings))
  ∧ ((applyDotfiles fs home failSet mappings false).2.length = mappings.length)
  ∧ List.Forall₂ (applyOutcome home failSet) (analyzeDotfiles fs home mappings)
      ((applyDotfiles fs home failSet mappings false).2)
  ∧ (∀ p : String,
      (∀ a ∈ analyzeDotfiles fs home mappings, skipStatus a.status = false →
        p ≠ resolveDestinationPath home a.destination) →
      fsGet ((applyDotfiles fs home failSet mappings false).1) p = fsGet fs p) := by
  have hsrc : ∀ a ∈ analyzeDotfiles fs home mappings, skipStatus a.status = false →
      (fsGet fs (resolveSourcePath home a.source)).isSome = true := by
    intro a ha hask
    obtain ⟨m, _, rfl⟩ := List.mem_map.1 ha
    exact analyzeMapping_source_isSome fs home m hask
  have hspec := applyGo_spec home failSet (analyzeDotfiles fs home mappings) fs hsrc
  refine ⟨rfl, ?_, hspec.1, hspec.2⟩
  have hlen := hspec.1.length_eq
  simpa [analyzeDotfiles] using hlen.symm

/-- Witness for C4: the first mapping's destination is in the failure
set, so its Create action comes back downgraded to the Conflict carrying
the copy error; the second mapping's copy succeeds and its Create action
comes back unchanged; an unrelated path is untouched by the run. -/
theorem claim_C4_witness :
    ((applyDotfiles [("/h/.owl/dotfiles/a", FsNode.file [1] none),
          ("/h/.owl/dotfiles/b", FsNode.file [2] none)] "/h"
        ["/h/.x"] [⟨"a", "~/.x"⟩, ⟨"b", "~/.y"⟩] false).2
      = [⟨"a", "~/.x", DotfileStatus.conflict,
          some ("Copy failed: " ++ ("Failed to copy " ++ "/h/.owl/dotfiles/a"
            ++ " to " ++ "/h/.x"))⟩,
         ⟨"b", "~/.y", DotfileStatus.create, none⟩])
  ∧ fsGet ((applyDotfiles [("/h/.owl/dotfiles/a", FsNode.file [1] none),
          ("/h/.owl/dotfiles/b", FsNode.file [2] none)] "/h"
        ["/h/.x"] [⟨"a", "~/.x"⟩, ⟨"b", "~/.y"⟩] false).1) "/h/other"
      = fsGet [("/h/.owl/dotfiles/a", FsNode.file [1] none),
          ("/h/.owl/dotfiles/b", FsNode.file [2] none)] "/h/other" := by
  have hc4 := claim_C4 [("/h/.owl/dotfiles/a", FsNode.file [1] none),
      ("/h/.owl/dotfiles/b", FsNode.file [2] none)] "/h" ["/h/.x"]
    [⟨"a", "~/.x"⟩, ⟨"b", "~/.y"⟩]
  exact ⟨by decide, hc4.2.2.2 "/h/other" (by decide)⟩

/-- C7: every Package.config entry yields its mapping — an entry with the
literal separator is split into trimmed source and destination; an entry
without it becomes the destination wholesale with the source derived as
its final path component (file name), whenever that component exists. -/
theorem claim_C7 (cfg : DConfig) (nm : String) (pkg : DPackage) (configStr : String)
    (hmem : (nm, pkg) ∈ cfg.packages) (hcfg : pkg.config = some configStr) :
    (∀ src dst, splitOnce configStr " -> " = some (src, dst) →
      DotfileMapping.mk (strTrim src) (strTrim dst) ∈ getDotfileMappings cfg)
  ∧ (splitOnce configStr " -> " = none →
      ∀ fn, fileNameOf (strTrim configStr) = some fn →
        DotfileMapping.mk fn (strTrim configStr) ∈ getDotfileMappings cfg) := by
  constructor
  · intro src dst hsep
    unfold getDotfileMappings
    refine List.mem_filterMap.2 ⟨(nm, pkg), hmem, ?_⟩
    simp only [hcfg, hsep]
  · intro hsep fn hfn
    unfold getDotfileMappings
    refine List.mem_filterMap.2 ⟨(nm, pkg), hmem, ?_⟩
    simp only [hcfg, hsep, hfn, Option.getD_some]

/-- Witness for C7: a separator entry splits; a bare path entry derives
its source from the final path component. -/
theorem claim_C7_witness :
    DotfileMapping.mk "fish" "~/.config/fish" ∈
      getDotfileMappings
        ⟨[("fish", ⟨some "fish -> ~/.config/fish", none, []⟩),
          ("nvim", ⟨some "~/.config/nvim", none, []⟩)], [], []⟩
  ∧ DotfileMapping.mk "nvim" "~/.config/nvim" ∈
      getDotfileMappings
        ⟨[("fish", ⟨some "fish -> ~/.config/fish", none, []⟩),
          ("nvim", ⟨some "~/.config/nvim", none, []⟩)], [], []⟩ := by
  constructor
  · exact (claim_C7
      ⟨[("fish", ⟨some "fish -> ~/.config/fish", none, []⟩),
        ("nvim", ⟨some "~/.config/nvim", none, []⟩)], [], []⟩
      "fish" ⟨some "fish -> ~/.config/fish", none, []⟩ "fish -> ~/.config/fish"
      (by decide) rfl).1 "fish" "~/.config/fish" (by decide)
  · exact (claim_C7
      ⟨[("fish", ⟨some "fish -> ~/.config/fish", none, []⟩),
        ("nvim", ⟨some "~/.config/nvim", none, []⟩)], [], []⟩
      "nvim" ⟨some "~/.config/nvim", none, []⟩ "~/.config/nvim"
      (by decide) rfl).2 (by decide) "nvim" (by decide)

end Owl
